import Mathlib

/-!
Verification of the jpeg-steganography repository: a shallow embedding of the
factorial-number-system (FNS) engine (`src/fns/*`, `src/factorial_number_system.rs`),
the secret read/write orchestration (`src/lib_secret.rs`), the Huffman code-table
builder (`src/huffman.rs`), the SOS scan check (`src/processors/dht_writer.rs`) and
the DC step of the entropy transcoder (`src/jpeg/entropy_stream.rs`).

Rust `usize`/`BigUint` arithmetic is modelled by `Nat` (the repository uses
arbitrary-precision integers everywhere the values can be large; `usize` digit
values are always small).  Rust operations that can panic (out-of-range `Vec`
indexing/removal, `unwrap`, slice-splitting past the end, subtraction underflow)
are modelled by `Option`, with `none` for the panic.
-/

namespace JpegSteg

/-- `factorial` from `src/fns/mod.rs` (`while n > 1 { result *= n; n -= 1 }`). -/
def factorial : Nat → Nat
  | 0 => 1
  | n + 1 => (n + 1) * factorial n

theorem factorial_pos (n : Nat) : 0 < factorial n := by
  induction n with
  | zero => simp [factorial]
  | succ n ih => simp [factorial]; omega

/-- The per-position place values of a single-table FNS of size `n`:
`(1..n).rev().map(factorial)` from `impl Bases for usize` in `src/fns/traits.rs`. -/
def ns0Bases : Nat → List Nat
  | 0 => []
  | 1 => []
  | n + 2 => factorial (n + 1) :: ns0Bases (n + 1)

theorem ns0Bases_length (n : Nat) : (ns0Bases n).length = n - 1 := by
  induction n with
  | zero => rfl
  | succ n ih =>
    match n, ih with
    | 0, _ => rfl
    | m + 1, ih => simp [ns0Bases]; omega

/-- The digit-extraction loop shared by `NS0::try_from_input` and the generic
`try_from_input` in `src/fns/traits.rs`: `digit = value / base; value -= digit * base`. -/
def ns0Digits (value : Nat) : List Nat → List Nat
  | [] => []
  | b :: bs => value / b :: ns0Digits (value % b) bs

theorem ns0Digits_length (value : Nat) (bs : List Nat) :
    (ns0Digits value bs).length = bs.length := by
  induction bs generalizing value with
  | nil => rfl
  | cons b bs ih => simp [ns0Digits, ih]

/-- The `NS0` digit vector (`impl_ns!(BASE: NS0, usize)` in `src/fns/ns0.rs`). -/
structure NS0 where
  digits : List Nat
  deriving Repr, DecidableEq

/-- `NS0::try_from_input` from `src/fns/ns0.rs`: `None` when `value >= n!`,
otherwise the mixed-radix digits of `value` over bases `(n-1)!, …, 1!`. -/
def NS0.tryFromInput (value : Nat) (input : Nat) : Option NS0 :=
  if value < factorial input then some ⟨ns0Digits value (ns0Bases input)⟩ else none

/-- `Σ digit·base` over aligned digit/base pairs — the loop of the
`biguint_from!` macro in `src/fns/traits.rs`. -/
def weightedSum {α : Type} (f : α → Nat) : List (α × Nat) → Nat
  | [] => 0
  | p :: ps => f p.1 * p.2 + weightedSum f ps

/-- `BigUint::from(NS0)` via `digits_bases` (digits zipped with
`bases()` of `digits.len() + 1`; the two lists have equal length). -/
def NS0.toNat (ns : NS0) : Nat :=
  weightedSum id (ns.digits.zip (ns0Bases (ns.digits.length + 1)))

/-- Well-formedness of a digit vector for an available-pool of size `n`:
each digit indexes into the shrinking pool (`available.remove(digit)` in Rust
panics otherwise). -/
def DigitsWf : List Nat → Nat → Prop
  | [], _ => True
  | d :: ds, n => d < n ∧ DigitsWf ds (n - 1)

instance : ∀ (ds : List Nat) (n : Nat), Decidable (DigitsWf ds n)
  | [], _ => isTrue trivial
  | _ :: ds, n => by
    have := instDecidableDigitsWf ds (n - 1)
    unfold DigitsWf
    infer_instance

/-- The loop of `NS0::to_permutation`: `permutation.push(available.remove(digit))`,
then the leftover pool is appended.  `none` models the Rust panic on
`digit >= available.len()`. -/
def permFromDigits : List Nat → List Nat → Option (List Nat)
  | [], avail => some avail
  | d :: ds, avail =>
    match avail.get? d with
    | none => none
    | some x => (permFromDigits ds (avail.eraseIdx d)).map (x :: ·)

/-- `NS0::to_permutation` from `src/fns/ns0.rs`. -/
def NS0.toPermutation (ns : NS0) : Option (List Nat) :=
  permFromDigits ns.digits (List.range (ns.digits.length + 1))

/-- The loop of `NS0::from_permutation`: for each prefix element find its index
in the shrinking pool (`position(..).unwrap()`; `none` models the panic when the
element is absent), remove it, and emit the index as a digit. -/
def lehmerDigits : List Nat → List Nat → Option (List Nat)
  | [], _ => some []
  | p :: ps, avail =>
    if p ∈ avail then
      (lehmerDigits ps (avail.eraseIdx (avail.indexOf p))).map (avail.indexOf p :: ·)
    else none

/-- `NS0::from_permutation` from `src/fns/ns0.rs`; processes
`permutation[..len-1]` (`none` models the slice-bound panic on an empty input). -/
def NS0.fromPermutation (perm : List Nat) : Option NS0 :=
  if perm.isEmpty then none
  else (lehmerDigits perm.dropLast (List.range perm.length)).map NS0.mk

/-- `values.to_vec(); sort()` — Rust's stable sort on the copied buffer. -/
def sortNat (l : List Nat) : List Nat :=
  List.insertionSort (· ≤ ·) l

/-- `NS0::permute_values` from `src/fns/ns0.rs`: `values[index] = old_values[perm]`
with `old_values = sort(values)`.  Entries past the permutation length are left
unchanged; `none` models the index-out-of-range panics. -/
def NS0.permuteValues (ns : NS0) (values : List Nat) : Option (List Nat) :=
  ns.toPermutation.bind fun perm =>
    if perm.length ≤ values.length then
      (perm.mapM fun p => (sortNat values).get? p).map (· ++ values.drop perm.length)
    else none

/-- `NS0::read_values` from `src/fns/ns0.rs`: locate each byte in the sorted
copy, then run `from_permutation`.  (The `position(..).unwrap()` always succeeds
because every byte occurs in the sorted copy, so the total `indexOf` is exact.) -/
def NS0.readValues (values : List Nat) : Option NS0 :=
  NS0.fromPermutation (values.map fun v => (sortNat values).indexOf v)

/-! ### NS1: one DHT table (a list of per-codeword-length counts) -/

/-- `base_info` from `src/fns/traits.rs`, generic in the per-position maximum
(`MaxBaseValue`): walks the (already filtered) input list from the right,
pairing each position with the product of the maxima to its right, and
returning the overall product (`MAX`) together with the `(input, base)` pairs. -/
def baseInfo {α : Type} (mbv : α → Nat) : List α → Nat × List (α × Nat)
  | [] => (1, [])
  | x :: xs =>
    let r := baseInfo mbv xs
    (r.1 * mbv x, (x, r.1) :: r.2)

/-- `ValidInputs for Vec<usize>`: keep only counts `> 1`. -/
def validSizes (sizes : List Nat) : List Nat :=
  sizes.filter fun s => 1 < s

/-- `MaxBaseValue for Vec<usize>` (`base_info(..).0`): `Π counts!` over valid counts. -/
def ns1Max (sizes : List Nat) : Nat :=
  (baseInfo factorial (validSizes sizes)).1

/-- The `NS1` digit vector: one `NS0` per valid count of the table. -/
structure NS1 where
  digits : List NS0
  deriving Repr, DecidableEq

/-- The digit loop of the generic `try_from_input` with `Child = NS0`:
`digit = value / base; value -= digit * base; NS0::try_from_input(digit, size).unwrap()`.
`none` models the (never-taken) `unwrap` panic. -/
def ns1FromPairs : Nat → List (Nat × Nat) → Option (List NS0)
  | _, [] => some []
  | v, (sz, b) :: rest =>
    match NS0.tryFromInput (v / b) sz with
    | none => none
    | some d => (ns1FromPairs (v % b) rest).map (d :: ·)

/-- `NS1::try_from_input` (generic `try_from_input` in `src/fns/traits.rs` with
`Input = Vec<usize>`): `None` when `value >= MAX`. -/
def NS1.tryFromInput (value : Nat) (input : List Nat) : Option NS1 :=
  if value < ns1Max input then
    (ns1FromPairs value (baseInfo factorial (validSizes input)).2).map NS1.mk
  else none

/-- `MaxBaseValue for NS0` used by `NS1`'s own `bases()`: `(len + 1)!`. -/
def NS0.maxBase (ns : NS0) : Nat :=
  factorial (ns.digits.length + 1)

/-- `BigUint::from(NS1)`: digits weighted by bases recomputed from the digit
vector itself. -/
def NS1.toNat (ns : NS1) : Nat :=
  weightedSum NS0.toNat (baseInfo NS0.maxBase ns.digits).2

/-- `MaxBaseValue for NS1` (via `impl_sub_ns`): product of the digits' maxima. -/
def NS1.maxBase (ns : NS1) : Nat :=
  (baseInfo NS0.maxBase ns.digits).1

/-- The loop of `NS1::permute_values` / `split_values_mut`: the buffer is cut
into consecutive chunks of `digit.digits.len() + 1` bytes, each permuted by its
digit; the leftover tail is untouched.  `none` models the `split_at_mut` panic
when a chunk overruns the buffer. -/
def ns1PermLoop : List NS0 → List Nat → Option (List Nat)
  | [], values => some values
  | d :: ds, values =>
    let k := d.digits.length + 1
    if k ≤ values.length then
      (d.permuteValues (values.take k)).bind fun chunk =>
        (ns1PermLoop ds (values.drop k)).map (chunk ++ ·)
    else none

/-- `NS1::permute_values` from `src/fns/ns1.rs`. -/
def NS1.permuteValues (ns : NS1) (values : List Nat) : Option (List Nat) :=
  ns1PermLoop ns.digits values

/-- The accumulation loop of `NS1::read_values`: split the buffer by the valid
counts, read each chunk with `NS0::read_values` and weight it by its base. -/
def ns1ReadAcc : List (Nat × Nat) → List Nat → Option Nat
  | [], _ => some 0
  | (sz, b) :: rest, values =>
    if sz ≤ values.length then
      (NS0.readValues (values.take sz)).bind fun d =>
        (ns1ReadAcc rest (values.drop sz)).map fun r => b * d.toNat + r
    else none

/-- `NS1::read_values` from `src/fns/ns1.rs`: reconstruct the integer, then
re-encode it with `try_from_input(..).unwrap()` (`none` models the panics). -/
def NS1.readValues (input : List Nat) (values : List Nat) : Option NS1 :=
  (ns1ReadAcc (baseInfo factorial (validSizes input)).2 values).bind
    fun v => NS1.tryFromInput v input

/-! ### NS2: the whole image (a list of DHT tables) -/

/-- `ValidInputs for Vec<Vec<usize>>`: keep only tables with some valid count. -/
def validGroups (sizes : List (List Nat)) : List (List Nat) :=
  sizes.filter fun g => ¬(validSizes g).isEmpty

/-- `MaxBaseValue for Vec<Vec<usize>>`: product of the tables' `MAX`es. -/
def ns2Max (sizes : List (List Nat)) : Nat :=
  (baseInfo ns1Max (validGroups sizes)).1

/-- The `NS2` digit vector: one `NS1` per valid table. -/
structure NS2 where
  digits : List NS1
  deriving Repr, DecidableEq

/-- The digit loop of the generic `try_from_input` with `Child = NS1`. -/
def ns2FromPairs : Nat → List (List Nat × Nat) → Option (List NS1)
  | _, [] => some []
  | v, (g, b) :: rest =>
    match NS1.tryFromInput (v / b) g with
    | none => none
    | some d => (ns2FromPairs (v % b) rest).map (d :: ·)

/-- `NS2::try_from_input` (generic `try_from_input` with `Input = Vec<Vec<usize>>`). -/
def NS2.tryFromInput (value : Nat) (input : List (List Nat)) : Option NS2 :=
  if value < ns2Max input then
    (ns2FromPairs value (baseInfo ns1Max (validGroups input)).2).map NS2.mk
  else none

/-- `BigUint::from(NS2)`: digits weighted by bases recomputed from the digits. -/
def NS2.toNat (ns : NS2) : Nat :=
  weightedSum NS1.toNat (baseInfo NS1.maxBase ns.digits).2

/-- `NS2::permute_values` from `src/fns/ns2.rs`: `digits.iter().zip(values)` —
the zip truncates at the shorter list, leaving later buffers untouched. -/
def ns2PermLoop : List NS1 → List (List Nat) → Option (List (List Nat))
  | _, [] => some []
  | [], vs => some vs
  | d :: ds, v :: vs =>
    (d.permuteValues v).bind fun v2 => (ns2PermLoop ds vs).map (v2 :: ·)

def NS2.permuteValues (ns : NS2) (values : List (List Nat)) : Option (List (List Nat)) :=
  ns2PermLoop ns.digits values

/-- The accumulation loop of `NS2::read_values`:
`input.iter().zip(get_bases(input.valid()).zip(values))` — the full group list
zipped against the bases of the valid groups and the full value-buffer list. -/
def ns2ReadAcc : List (List Nat) → List Nat → List (List Nat) → Option Nat
  | _, [], _ => some 0
  | _, _, [] => some 0
  | [], _, _ => some 0
  | g :: gs, b :: bs, v :: vs =>
    ((NS1.readValues g v).map NS1.toNat).bind fun x =>
      (ns2ReadAcc gs bs vs).map fun r => b * x + r

/-- `NS2::read_values` from `src/fns/ns2.rs`. -/
def NS2.readValues (input : List (List Nat)) (values : List (List Nat)) : Option NS2 :=
  (ns2ReadAcc input ((baseInfo ns1Max (validGroups input)).2.map (·.2)) values).bind
    fun v => NS2.tryFromInput v input

/-! ### The legacy single-table engine (`src/factorial_number_system.rs`) -/

/-- The `// Find extent` loop of `impl From<T> for FNS`: the smallest `k ≥ 1`
with `(k+1)! > value`.  The loop increments `k` until the factorial passes
`value`; `value` steps of fuel always suffice (`(value+2)! > value`). -/
def fnsNumDigitsGo (value : Nat) : Nat → Nat → Nat
  | 0, k => k
  | fuel + 1, k => if value < factorial (k + 1) then k else fnsNumDigitsGo value fuel (k + 1)

def fnsNumDigits (value : Nat) : Nat :=
  fnsNumDigitsGo value value 1

/-- The legacy `FNS` digit vector (leading zeros stripped on construction). -/
structure FNS where
  digits : List Nat
  deriving Repr, DecidableEq

/-- `impl<T> From<T> for FNS`: digits of `value` over bases `k!, …, 1!`
where `k` is the found extent. -/
def FNS.fromNat (value : Nat) : FNS :=
  ⟨ns0Digits value (ns0Bases (fnsNumDigits value + 1))⟩

/-- `FNS::to_permutation(size)` from `src/factorial_number_system.rs`: left-pad
the digits with `vec![0; size - digits.len() - 1]` — `none` models the Rust
panic when that subtraction underflows (`digits.len() + 1 > size`). -/
def FNS.toPermutation (fns : FNS) (size : Nat) : Option (List Nat) :=
  if fns.digits.length + 1 ≤ size then
    permFromDigits (List.replicate (size - fns.digits.length - 1) 0 ++ fns.digits)
      (List.range size)
  else none

/-- The `while digits.len() > 1 && digits[0] == 0 { digits.remove(0) }` loop of
`FNS::from_permutation`. -/
def stripZeros : List Nat → List Nat
  | 0 :: x :: xs => stripZeros (x :: xs)
  | l => l

/-- `FNS::from_permutation`: the Lehmer loop of `NS0::from_permutation` followed
by leading-zero stripping. -/
def FNS.fromPermutation (perm : List Nat) : Option FNS :=
  if perm.isEmpty then none
  else (lehmerDigits perm.dropLast (List.range perm.length)).map fun ds => ⟨stripZeros ds⟩

/-- `FNS::read_values` from `src/factorial_number_system.rs`. -/
def FNS.readValues (values : List Nat) : Option FNS :=
  FNS.fromPermutation (values.map fun v => (sortNat values).indexOf v)

/-- The enumerated summation loop of `impl From<&FNS> for BigUint`:
`result += digit * factorial(index + 1)` with `index` counting from 0. -/
def fnsSumLoop : Nat → List Nat → Nat
  | _, [] => 0
  | i, d :: ds => d * factorial (i + 1) + fnsSumLoop (i + 1) ds

/-- `impl From<&FNS> for BigUint`: reverse the digits and weight position
`index` (0-based from the little end) by `(index + 1)!`. -/
def FNS.toNat (fns : FNS) : Nat :=
  fnsSumLoop 0 fns.digits.reverse

/-! ### The secret engine (`src/lib_secret.rs`), modelled at the level of the
collected per-table `(sizes, values)` lists that `DhtReader` gathers in file
order and `DhtWriter` writes back in the same order. -/

/-- Big-endian byte-string to integer (`BigUint::from_bytes_be`). -/
def beBytesToNat (bytes : List Nat) : Nat :=
  bytes.foldl (fun acc b => 256 * acc + b) 0

/-- Minimal big-endian byte representation (`BigUint::to_bytes_be`); `[0]` for
zero.  The `while`-style division loop is written with an explicit fuel
counter (structurally recursive so that concrete instances evaluate); `n`
iterations always suffice since each step divides by 256. -/
def natToBeBytesLoop : Nat → Nat → List Nat
  | _, 0 => []
  | 0, _ + 1 => []
  | fuel + 1, n + 1 => natToBeBytesLoop fuel ((n + 1) / 256) ++ [(n + 1) % 256]

def natToBeBytesGo (n : Nat) : List Nat :=
  natToBeBytesLoop n n

def natToBeBytes (n : Nat) : List Nat :=
  if n = 0 then [0] else natToBeBytesGo n

/-- `encode_secret` from `src/lib_secret.rs`: prepend the magic `0xBE 0xEF`. -/
def encodeSecret (secret : List Nat) : List Nat :=
  0xBE :: 0xEF :: secret

/-- `write_secret` from `src/lib_secret.rs`, at the level of the DHT tables it
reads and rewrites: interpret the magic-prefixed secret as an integer, encode it
into `NS2` digits sized by the collected size lists (`None` is the
`SecretTooLarge` bail-out, before anything is written), and permute the
collected value lists; the result is the list of rewritten value lists. -/
def writeSecretTables (sizes : List (List Nat)) (values : List (List Nat))
    (secret : List Nat) : Option (List (List Nat)) :=
  match NS2.tryFromInput (beBytesToNat (encodeSecret secret)) sizes with
  | none => none
  | some ns => ns.permuteValues values

/-- The final magic probe of `read_secret`:
`if data.len() <= 2 || data[0] != 0xBE || data[1] != 0xEF { None } else { Some(data[2..]) }`. -/
def probeSecret (data : List Nat) : Option (List Nat) :=
  if data.length ≤ 2 then none
  else if data.getD 0 0 ≠ 0xBE then none
  else if data.getD 1 0 ≠ 0xEF then none
  else some (data.drop 2)

/-- `read_secret` from `src/lib_secret.rs`, at the level of the collected DHT
tables: recover the integer via `NS2::read_values`, re-encode it big-endian and
probe the magic header.  The outer `Option` models the panics inside
`read_values`; the inner one is the "no message" result. -/
def readSecretTables (sizes : List (List Nat)) (values : List (List Nat)) :
    Option (Option (List Nat)) :=
  (NS2.readValues sizes values).map fun ns => probeSecret (natToBeBytes ns.toNat)

/-! ### The Huffman code-table builder (`src/huffman.rs`) -/

/-- `bin_to_vec(value, size)`: the `size`-bit big-endian bit vector of `value`
(LSB-first bits, padded or truncated to `size`, then reversed; `value = 0`
yields `size` zero bits).  The bit loop carries an explicit fuel counter
(`n` halvings always suffice). -/
def lsbBitsLoop : Nat → Nat → List Nat
  | _, 0 => []
  | 0, _ + 1 => []
  | fuel + 1, n + 1 => (n + 1) % 2 :: lsbBitsLoop fuel ((n + 1) / 2)

def lsbBits (n : Nat) : List Nat :=
  lsbBitsLoop n n

def binToVec (value size : Nat) : List Nat :=
  if value = 0 then List.replicate size 0
  else
    let bits := lsbBits value
    let bits := if bits.length < size then bits ++ List.replicate (size - bits.length) 0
                else bits.take size
    bits.reverse

/-- The inner `for _ in 0..count` loop of `construct_huffman_table`: emit
`count` consecutive codes of width `size`, consuming one symbol each (`none`
models the `values.next().unwrap()` panic on exhaustion).  The `u16` code
wraps modulo `2^16`. -/
def chtEmit : Nat → Nat → Nat → List Nat → Option (List (Nat × List Nat) × List Nat)
  | 0, _, _, vs => some ([], vs)
  | _ + 1, _, _, [] => none
  | c + 1, code, size, v :: vs =>
    (chtEmit c ((code + 1) % 65536) size vs).map fun r =>
      ((v, binToVec code size) :: r.1, r.2)

/-- The outer loop of `construct_huffman_table` over the `(length, count)`
pairs with nonzero count; returns the emitted entries and the final sentinel
`(255, bin_to_vec(code, last_length))`. -/
def chtLoop : List (Nat × Nat) → Nat → Nat → List Nat →
    Option (List (Nat × List Nat) × Option (Nat × List Nat))
  | [], _, _, _ => some ([], none)
  | (size, count) :: rest, code, lastSize, vs =>
    let code2 := code * 2 ^ (size - lastSize) % 65536
    (chtEmit count code2 size vs).bind fun r =>
      (chtLoop rest ((code2 + count) % 65536) size r.2).map fun r2 =>
        (r.1 ++ r2.1, some (r2.2.getD (255, binToVec ((code2 + count) % 65536) size)))

/-- `construct_huffman_table` from `src/huffman.rs` (the `codes` list is the
`enumerate/filter_map` of the nonzero counts). -/
def constructHuffmanTable (sizes : List Nat) (values : List Nat) :
    Option (List (Nat × List Nat)) :=
  (chtLoop (sizes.enum.filterMap fun p => if p.2 = 0 then none else some (p.1 + 1, p.2))
      0 0 values).map fun r =>
    match r.2 with
    | none => r.1
    | some last => r.1 ++ [last]

/-! ### SOS scan check (`src/processors/dht_writer.rs`) and the DC step of
`decode_block` (`src/jpeg/entropy_stream.rs`) -/

/-- The `Marker::SOS` guard in `DhtWriter::process_segment`:
`jpeg.scan.spectral_start != 0 || jpeg.scan.spectral_end != 64` bails with
"Progressive JPEG files not supported". -/
def sosRejected (spectralStart spectralEnd : Nat) : Bool :=
  spectralStart != 0 || spectralEnd != 64

/-- `SosData::try_from` stores `spectral_end = data[..] + 1` (the raw `Se` byte
plus one). -/
def parseSpectralEnd (seByte : Nat) : Nat :=
  seByte + 1

/-- Outcome of the DC step of `decode_block`. -/
inductive DcStepResult : Type where
  | ok (bitsCopied : Nat) : DcStepResult
  | err : DcStepResult
  | aborts : DcStepResult
  deriving Repr, DecidableEq

/-- The `spectral_start == 0` branch of `decode_block`: read one DC Huffman
symbol `value`, then `match value { 0 => {}, 1..=11 => read(value bits), _ => panic!() }`.
`err` is the surfaced bitstream error when fewer than `value` bits remain;
`aborts` is the `panic!()`, which terminates the process instead of returning. -/
def dcStep (value : Nat) (remainingBits : Nat) : DcStepResult :=
  if value = 0 then .ok 0
  else if value ≤ 11 then
    if value ≤ remainingBits then .ok value else .err
  else .aborts

/-! ## Lemmas: the encode direction of the FNS engine -/

theorem ns0Bases_succ (n : Nat) (h : 1 ≤ n) :
    ns0Bases (n + 1) = factorial n :: ns0Bases n := by
  match n, h with
  | m + 1, _ => rfl

theorem ns0Digits_toNat (n : Nat) :
    ∀ v, v < factorial n →
      weightedSum id ((ns0Digits v (ns0Bases n)).zip (ns0Bases n)) = v := by
  induction n with
  | zero =>
    intro v hv
    simp [factorial] at hv
    simp [hv, ns0Bases, ns0Digits, weightedSum]
  | succ n ih =>
    intro v hv
    match n with
    | 0 =>
      simp [factorial] at hv
      simp [hv, ns0Bases, ns0Digits, weightedSum]
    | m + 1 =>
      rw [ns0Bases_succ (m + 1) (by omega)]
      simp only [ns0Digits, List.zip_cons_cons, weightedSum, id]
      have hfpos : 0 < factorial (m + 1) := factorial_pos _
      have hrec := ih (v % factorial (m + 1)) (Nat.mod_lt _ hfpos)
      simp only [List.zip] at hrec ⊢
      rw [hrec]
      exact Nat.div_add_mod' v (factorial (m + 1))

theorem ns0Digits_wf (n : Nat) :
    ∀ v, v < factorial n → DigitsWf (ns0Digits v (ns0Bases n)) n := by
  induction n with
  | zero => intro v _; simp [ns0Bases, ns0Digits, DigitsWf]
  | succ n ih =>
    intro v hv
    match n with
    | 0 => simp [ns0Bases, ns0Digits, DigitsWf]
    | m + 1 =>
      rw [ns0Bases_succ (m + 1) (by omega)]
      simp only [ns0Digits, DigitsWf]
      constructor
      · have hstep : factorial (m + 1 + 1) = (m + 1 + 1) * factorial (m + 1) := rfl
        exact Nat.div_lt_iff_lt_mul (factorial_pos (m + 1)) |>.mpr (by omega)
      · simpa using ih _ (Nat.mod_lt _ (factorial_pos (m + 1)))

theorem ns0Digits_bases_length (v : Nat) (n : Nat) :
    (ns0Digits v (ns0Bases n)).length = n - 1 := by
  rw [ns0Digits_length, ns0Bases_length]

/-- `NS0::try_from_input` succeeds strictly below `n!` and the resulting digit
vector converts back to the input (the single-table round trip), is sized
`n - 1`, and is well formed. -/
theorem ns0_tryFromInput_spec {v n : Nat} (hv : v < factorial n) :
    ∃ ns : NS0, NS0.tryFromInput v n = some ns ∧ ns.toNat = v ∧
      ns.digits.length = n - 1 ∧ DigitsWf ns.digits n := by
  refine ⟨⟨ns0Digits v (ns0Bases n)⟩, ?_, ?_, ns0Digits_bases_length v n, ns0Digits_wf n v hv⟩
  · simp [NS0.tryFromInput, hv]
  · show weightedSum id _ = v
    have hlen : (ns0Digits v (ns0Bases n)).length = n - 1 := ns0Digits_bases_length v n
    match n, hv with
    | 0, hv =>
      simp [factorial] at hv
      simp [hv, ns0Digits, ns0Bases, weightedSum]
    | m + 1, hv =>
      rw [hlen]
      simpa using ns0Digits_toNat (m + 1) v hv

theorem ns0_tryFromInput_none {v n : Nat} (hv : factorial n ≤ v) :
    NS0.tryFromInput v n = none := by
  simp [NS0.tryFromInput, Nat.not_lt.mpr hv]

theorem baseInfo_fst_pos {α : Type} (mbv : α → Nat) (hmbv : ∀ a, 0 < mbv a) :
    ∀ xs : List α, 0 < (baseInfo mbv xs).1 := by
  intro xs
  induction xs with
  | nil => simp [baseInfo]
  | cons x xs ih => simp only [baseInfo]; exact Nat.mul_pos ih (hmbv x)

theorem validSizes_mem {sizes : List Nat} {x : Nat} (h : x ∈ validSizes sizes) : 2 ≤ x := by
  have := List.of_mem_filter h
  simp at this
  omega

/-- The `NS1` digit-extraction loop: strictly below the capacity it succeeds,
the digit sizes mirror the input sizes, every digit is well formed, and the
weighted sum over the bases recomputed from the digits restores the input. -/
theorem ns1FromPairs_spec :
    ∀ (vs : List Nat) (v : Nat), (∀ x ∈ vs, 1 ≤ x) → v < (baseInfo factorial vs).1 →
      ∃ ds : List NS0, ns1FromPairs v (baseInfo factorial vs).2 = some ds ∧
        ds.map (fun d => d.digits.length + 1) = vs ∧
        (∀ d ∈ ds, DigitsWf d.digits (d.digits.length + 1) ∧
          d.toNat < factorial (d.digits.length + 1)) ∧
        (baseInfo NS0.maxBase ds).1 = (baseInfo factorial vs).1 ∧
        weightedSum NS0.toNat (baseInfo NS0.maxBase ds).2 = v := by
  intro vs
  induction vs with
  | nil =>
    intro v _ hv
    simp [baseInfo] at hv
    exact ⟨[], by simp [ns1FromPairs, baseInfo, weightedSum, hv]⟩
  | cons x xs ih =>
    intro v hpos hv
    simp only [baseInfo] at hv ⊢
    set m := (baseInfo factorial xs).1 with hm
    have hmpos : 0 < m := baseInfo_fst_pos factorial factorial_pos xs
    have hdiv : v / m < factorial x := by
      rw [Nat.div_lt_iff_lt_mul hmpos]
      calc v < m * factorial x := hv
        _ = factorial x * m := Nat.mul_comm _ _
    obtain ⟨d0, hd0, hd0val, hd0len, hd0wf⟩ := ns0_tryFromInput_spec hdiv
    have hx1 : 1 ≤ x := hpos x (List.mem_cons_self x xs)
    have hd0size : d0.digits.length + 1 = x := by omega
    obtain ⟨ds, hds, hsizes, hwfs, hmaxeq, hsum⟩ :=
      ih (v % m) (fun y hy => hpos y (List.mem_cons_of_mem x hy)) (Nat.mod_lt _ hmpos)
    refine ⟨d0 :: ds, ?_, ?_, ?_, ?_, ?_⟩
    · simp only [ns1FromPairs, hd0, hds, Option.map_some']
    · simp [hsizes, hd0size]
    · intro d hd
      rcases List.mem_cons.mp hd with h | h
      · subst h
        refine ⟨by rw [hd0size]; exact hd0wf, ?_⟩
        rw [hd0size, hd0val]
        exact hdiv
      · exact hwfs d h
    · simp only [baseInfo, hmaxeq]
      rw [NS0.maxBase, hd0size]
    · simp only [baseInfo, weightedSum, hmaxeq, hsum, hd0val]
      exact Nat.div_add_mod' v m

/-- `NS1::try_from_input` succeeds strictly below `MAX` and round-trips. -/
theorem ns1_tryFromInput_spec {v : Nat} {g : List Nat} (hv : v < ns1Max g) :
    ∃ ns : NS1, NS1.tryFromInput v g = some ns ∧ ns.toNat = v ∧
      ns.maxBase = ns1Max g ∧
      ns.digits.map (fun d => d.digits.length + 1) = validSizes g ∧
      (∀ d ∈ ns.digits, DigitsWf d.digits (d.digits.length + 1) ∧
        d.toNat < factorial (d.digits.length + 1)) := by
  obtain ⟨ds, hds, hsizes, hwfs, hmaxeq, hsum⟩ :=
    ns1FromPairs_spec (validSizes g) v (fun x hx => by have := validSizes_mem hx; omega) hv
  exact ⟨⟨ds⟩, by simp [NS1.tryFromInput, hv, hds], hsum, hmaxeq, hsizes, hwfs⟩

theorem ns1_tryFromInput_none {v : Nat} {g : List Nat} (hv : ns1Max g ≤ v) :
    NS1.tryFromInput v g = none := by
  simp [NS1.tryFromInput, Nat.not_lt.mpr hv]

theorem ns1Max_pos (g : List Nat) : 0 < ns1Max g :=
  baseInfo_fst_pos factorial factorial_pos _

/-- The `NS2` digit-extraction loop, mirroring `ns1FromPairs_spec` one level up. -/
theorem ns2FromPairs_spec :
    ∀ (gs : List (List Nat)) (v : Nat), v < (baseInfo ns1Max gs).1 →
      ∃ ds : List NS1, ns2FromPairs v (baseInfo ns1Max gs).2 = some ds ∧
        (List.zip ds gs).length = ds.length ∧ ds.length = gs.length ∧
        (∀ p ∈ List.zip ds gs,
          p.1.maxBase = ns1Max p.2 ∧ p.1.toNat < ns1Max p.2 ∧
          p.1.digits.map (fun d => d.digits.length + 1) = validSizes p.2 ∧
          (∀ d ∈ p.1.digits, DigitsWf d.digits (d.digits.length + 1) ∧
            d.toNat < factorial (d.digits.length + 1))) ∧
        (baseInfo NS1.maxBase ds).1 = (baseInfo ns1Max gs).1 ∧
        weightedSum NS1.toNat (baseInfo NS1.maxBase ds).2 = v := by
  intro gs
  induction gs with
  | nil =>
    intro v hv
    simp [baseInfo] at hv
    exact ⟨[], by simp [ns2FromPairs, baseInfo, weightedSum, hv]⟩
  | cons g gs ih =>
    intro v hv
    simp only [baseInfo] at hv ⊢
    set m := (baseInfo ns1Max gs).1 with hm
    have hmpos : 0 < m := baseInfo_fst_pos ns1Max ns1Max_pos gs
    have hdiv : v / m < ns1Max g := by
      rw [Nat.div_lt_iff_lt_mul hmpos]
      calc v < m * ns1Max g := hv
        _ = ns1Max g * m := Nat.mul_comm _ _
    obtain ⟨d0, hd0, hd0val, hd0max, hd0sizes, hd0wfs⟩ := ns1_tryFromInput_spec hdiv
    obtain ⟨ds, hds, hzlen, hlen, hprops, hmaxeq, hsum⟩ := ih (v % m) (Nat.mod_lt _ hmpos)
    refine ⟨d0 :: ds, ?_, by simp [List.length_zip, hlen], by simp [hlen], ?_, ?_, ?_⟩
    · simp only [ns2FromPairs, hd0, hds, Option.map_some']
    · intro p hp
      rcases List.mem_cons.mp hp with h | h
      · subst h
        exact ⟨hd0max, by rw [hd0val]; exact hdiv, hd0sizes, hd0wfs⟩
      · exact hprops p h
    · simp only [baseInfo, hmaxeq, hd0max]
    · simp only [baseInfo, weightedSum, hmaxeq, hsum, hd0val]
      exact Nat.div_add_mod' v m

/-- `NS2::try_from_input` succeeds strictly below `MAX` and round-trips. -/
theorem ns2_tryFromInput_spec {v : Nat} {S : List (List Nat)} (hv : v < ns2Max S) :
    ∃ ns : NS2, NS2.tryFromInput v S = some ns ∧ ns.toNat = v ∧
      ns.digits.length = (validGroups S).length ∧
      (∀ p ∈ List.zip ns.digits (validGroups S),
        p.1.maxBase = ns1Max p.2 ∧ p.1.toNat < ns1Max p.2 ∧
        p.1.digits.map (fun d => d.digits.length + 1) = validSizes p.2 ∧
        (∀ d ∈ p.1.digits, DigitsWf d.digits (d.digits.length + 1) ∧
          d.toNat < factorial (d.digits.length + 1))) := by
  obtain ⟨ds, hds, _, hlen, hprops, _, hsum⟩ := ns2FromPairs_spec (validGroups S) v hv
  exact ⟨⟨ds⟩, by simp [NS2.tryFromInput, hv, hds], hsum, hlen, hprops⟩

theorem ns2_tryFromInput_none {v : Nat} {S : List (List Nat)} (hv : ns2Max S ≤ v) :
    NS2.tryFromInput v S = none := by
  simp [NS2.tryFromInput, Nat.not_lt.mpr hv]

/-! ## Lemmas: permutations, sorting and the value round trip -/

theorem getElem_cons_eraseIdx_perm {l : List Nat} {i : Nat} (h : i < l.length) :
    (l[i] :: l.eraseIdx i).Perm l := by
  have h1 : l.Perm (l[i] :: l.erase l[i]) := List.perm_cons_erase (List.getElem_mem h)
  have h2 : (l.erase l[i]).Perm (l.eraseIdx i) := List.erase_getElem h
  exact ((h1.trans (h2.cons l[i]))).symm

theorem eraseIdx_nodup {l : List Nat} (h : l.Nodup) (i : Nat) : (l.eraseIdx i).Nodup :=
  (List.eraseIdx_sublist l i).nodup h

/-- The `to_permutation` loop succeeds on a well-formed digit vector sized one
below the pool, produces a rearrangement of the pool, and the
`from_permutation` loop recovers exactly the digits from its output. -/
theorem permFromDigits_spec :
    ∀ (ds : List Nat) (avail : List Nat), DigitsWf ds avail.length →
      ds.length + 1 = avail.length → avail.Nodup →
      ∃ p, permFromDigits ds avail = some p ∧ p.Perm avail ∧ p.length = avail.length ∧
        lehmerDigits (p.take ds.length) avail = some ds := by
  intro ds
  induction ds with
  | nil =>
    intro avail _ _ _
    exact ⟨avail, rfl, List.Perm.refl _, rfl, by simp [lehmerDigits]⟩
  | cons d ds ih =>
    intro avail hwf hlen hnd
    simp only [DigitsWf] at hwf
    obtain ⟨hd, hwf'⟩ := hwf
    have hget : avail.get? d = some avail[d] := by
      rw [List.get?_eq_getElem?, List.getElem?_eq_getElem hd]
    have herase : (avail.eraseIdx d).length + 1 = avail.length :=
      List.length_eraseIdx_add_one hd
    have herase_len : (avail.eraseIdx d).length = avail.length - 1 := by omega
    obtain ⟨p', hp', hperm', hlen', hleh'⟩ :=
      ih (avail.eraseIdx d) (by rw [herase_len]; exact hwf') (by simp at hlen; omega)
        (eraseIdx_nodup hnd d)
    refine ⟨avail[d] :: p', ?_, ?_, ?_, ?_⟩
    · simp only [permFromDigits, hget, hp', Option.map_some']
    · exact (hperm'.cons _).trans (getElem_cons_eraseIdx_perm hd)
    · simp only [List.length_cons, hlen']; omega
    · rw [List.length_cons, List.take_succ_cons]
      simp only [lehmerDigits]
      rw [if_pos (List.getElem_mem hd)]
      rw [List.indexOf_getElem hnd d hd, hleh']
      rfl

theorem sortNat_perm (l : List Nat) : (sortNat l).Perm l :=
  List.perm_insertionSort _ l

theorem sortNat_sorted (l : List Nat) : (sortNat l).Sorted (· ≤ ·) :=
  List.sorted_insertionSort _ l

theorem sortNat_length (l : List Nat) : (sortNat l).length = l.length :=
  (sortNat_perm l).length_eq

theorem sortNat_eq_of_perm {l₁ l₂ : List Nat} (h : l₁.Perm l₂) : sortNat l₁ = sortNat l₂ :=
  List.eq_of_perm_of_sorted ((sortNat_perm l₁).trans (h.trans (sortNat_perm l₂).symm))
    (sortNat_sorted l₁) (sortNat_sorted l₂)

theorem sortNat_nodup {l : List Nat} (h : l.Nodup) : (sortNat l).Nodup :=
  ((sortNat_perm l).nodup_iff).mpr h

theorem mapM_option_eq_some_map {α β : Type} (f : α → Option β) (g : α → β) :
    ∀ l : List α, (∀ x ∈ l, f x = some (g x)) → l.mapM f = some (l.map g) := by
  intro l h
  induction l with
  | nil => rfl
  | cons x xs ih =>
    rw [List.mapM_cons, h x (List.mem_cons_self x xs),
      ih fun y hy => h y (List.mem_cons_of_mem x hy)]
    rfl

theorem map_getD_range (l : List Nat) :
    (List.range l.length).map (fun i => l.getD i 0) = l := by
  apply List.ext_getElem
  · simp
  · intro i h1 h2
    simp only [List.getElem_map, List.getElem_range]
    exact List.getD_eq_getElem l 0 h2

/-- `NS0::permute_values` on a distinct buffer of the matching size: it
succeeds, yields a rearrangement with the same sorted form, and
`NS0::read_values` recovers exactly the digit vector. -/
theorem NS0.permuteValues_spec (ns : NS0) (V : List Nat)
    (hwf : DigitsWf ns.digits V.length) (hlen : ns.digits.length + 1 = V.length)
    (hnd : V.Nodup) :
    ∃ V', ns.permuteValues V = some V' ∧ V'.Perm V ∧ V'.length = V.length ∧
      sortNat V' = sortNat V ∧ NS0.readValues V' = some ns ∧
      ns.permuteValues V' = some V' := by
  have hrange : (List.range V.length).length = V.length := List.length_range V.length
  obtain ⟨p, hp, hperm, hplen, hleh⟩ :=
    permFromDigits_spec ns.digits (List.range V.length) (by rw [hrange]; exact hwf)
      (by rw [hrange]; exact hlen) (List.nodup_range V.length)
  rw [hrange] at hplen
  have hsortlen : (sortNat V).length = V.length := sortNat_length V
  have hmem_lt : ∀ q ∈ p, q < V.length := fun q hq => by
    have : q ∈ List.range V.length := hperm.mem_iff.mp hq
    exact List.mem_range.mp this
  have hmapM : (p.mapM fun q => (sortNat V).get? q) =
      some (p.map fun q => (sortNat V).getD q 0) := by
    apply mapM_option_eq_some_map
    intro q hq
    have hqlt : q < (sortNat V).length := by rw [hsortlen]; exact hmem_lt q hq
    rw [List.get?_eq_getElem?, List.getElem?_eq_getElem hqlt,
      List.getD_eq_getElem (sortNat V) 0 hqlt]
  set V' := p.map fun q => (sortNat V).getD q 0 with hV'
  have htoperm : ns.toPermutation = some p := by
    rw [NS0.toPermutation, hlen]; exact hp
  have hVlen' : V'.length = V.length := by rw [hV', List.length_map, hplen]
  have hVperm' : V'.Perm V := by
    have h1 : V'.Perm ((List.range V.length).map fun q => (sortNat V).getD q 0) :=
      hperm.map _
    have h2 : (List.range V.length).map (fun q => (sortNat V).getD q 0) = sortNat V := by
      have := map_getD_range (sortNat V)
      rwa [hsortlen] at this
    rw [h2] at h1
    exact h1.trans (sortNat_perm V)
  have hsort' : sortNat V' = sortNat V := sortNat_eq_of_perm hVperm'
  have hself : ns.permuteValues V' = some V' := by
    rw [NS0.permuteValues, htoperm, Option.some_bind']
    rw [if_pos (by omega : p.length ≤ V'.length), hsort', hmapM, Option.map_some']
    rw [hplen, ← hVlen', List.drop_length, List.append_nil]
  refine ⟨V', ?_, hVperm', hVlen', hsort', ?_, hself⟩
  · rw [NS0.permuteValues, htoperm, Option.some_bind']
    rw [if_pos (le_of_eq hplen), hmapM, Option.map_some']
    rw [hplen, List.drop_length, List.append_nil]
  · rw [NS0.readValues, hsort']
    have hmapback : (V'.map fun v => (sortNat V).indexOf v) = p := by
      rw [hV', List.map_map]
      have : ∀ q ∈ p, ((fun v => (sortNat V).indexOf v) ∘ fun q => (sortNat V).getD q 0) q =
          id q := by
        intro q hq
        have hqlt : q < (sortNat V).length := by rw [hsortlen]; exact hmem_lt q hq
        simp only [Function.comp_apply, id]
        rw [List.getD_eq_getElem (sortNat V) 0 hqlt]
        exact List.indexOf_getElem (sortNat_nodup hnd) q hqlt
      rw [List.map_congr_left this, List.map_id]
    rw [hmapback, NS0.fromPermutation]
    have hpne : p.isEmpty = false := by
      cases p with
      | nil => simp at hplen; omega
      | cons a l => rfl
    rw [hpne]
    simp only [Bool.false_eq_true, if_false]
    have hdrop : p.dropLast = p.take ns.digits.length := by
      rw [List.dropLast_eq_take, hplen, ← hlen]
      simp
    rw [hdrop, hplen, hleh]
    rfl

theorem baseInfo_fst_congr_ns0 :
    ∀ (ds : List NS0) (vs : List Nat), ds.map (fun d => d.digits.length + 1) = vs →
      (baseInfo NS0.maxBase ds).1 = (baseInfo factorial vs).1 := by
  intro ds
  induction ds with
  | nil => intro vs h; simp at h; subst h; rfl
  | cons d ds ih =>
    intro vs h
    match vs, h with
    | _ :: vs, h =>
      simp only [List.map_cons, List.cons.injEq] at h
      obtain ⟨h1, h2⟩ := h
      simp only [baseInfo, ih vs h2, h1.symm, NS0.maxBase]

/-- The per-table permute/read round trip (`NS1::permute_values` followed by
the splitting loop of `NS1::read_values`): permuting a distinct buffer chunk
by chunk and reading it back reconstructs the digit vector's integer value. -/
theorem ns1Level_spec :
    ∀ (ds : List NS0) (vs : List Nat) (V : List Nat),
      ds.map (fun d => d.digits.length + 1) = vs →
      (∀ d ∈ ds, DigitsWf d.digits (d.digits.length + 1)) →
      V.Nodup → vs.sum ≤ V.length →
      ∃ V', ns1PermLoop ds V = some V' ∧ V'.length = V.length ∧
        ns1ReadAcc (baseInfo factorial vs).2 V' =
          some (weightedSum NS0.toNat (baseInfo NS0.maxBase ds).2) := by
  intro ds
  induction ds with
  | nil =>
    intro vs V h _ _ _
    simp at h
    subst h
    exact ⟨V, rfl, rfl, by simp [baseInfo, ns1ReadAcc, weightedSum]⟩
  | cons d ds ih =>
    intro vs V hmap hwfs hnd hsum
    match vs, hmap with
    | _ :: vs, hmap =>
      simp only [List.map_cons, List.cons.injEq] at hmap
      obtain ⟨hx, hmap'⟩ := hmap
      subst hx
      set x := d.digits.length + 1 with hxdef
      have hxsum : x + vs.sum ≤ V.length := by
        have := hsum
        rw [List.sum_cons] at this
        omega
      have hxle : x ≤ V.length := by omega
      have htake_len : (V.take x).length = x := by
        rw [List.length_take]
        omega
      have htake_nd : (V.take x).Nodup := (List.take_sublist x V).nodup hnd
      obtain ⟨C', hC', hCperm, hClen, _, hCread, _⟩ :=
        d.permuteValues_spec (V.take x)
          (by rw [htake_len]; exact hwfs d (List.mem_cons_self d ds))
          (by rw [htake_len]) htake_nd
      have hdrop_nd : (V.drop x).Nodup := (List.drop_sublist x V).nodup hnd
      have hdrop_len : (V.drop x).length = V.length - x := List.length_drop x V
      obtain ⟨T', hT', hTlen, hTread⟩ :=
        ih vs (V.drop x) hmap' (fun e he => hwfs e (List.mem_cons_of_mem d he)) hdrop_nd
          (by omega)
      refine ⟨C' ++ T', ?_, ?_, ?_⟩
      · simp only [ns1PermLoop, ← hxdef, if_pos hxle, hC', Option.some_bind', hT',
          Option.map_some']
      · rw [List.length_append, hClen, hTlen]
        omega
      · simp only [baseInfo, ns1ReadAcc, weightedSum]
        have hxle' : x ≤ (C' ++ T').length := by
          rw [List.length_append, hClen, htake_len]
          omega
        rw [if_pos hxle']
        have htakeC : (C' ++ T').take x = C' := List.take_left' (by rw [hClen, htake_len])
        have hdropC : (C' ++ T').drop x = T' := List.drop_left' (by rw [hClen, htake_len])
        rw [htakeC, hdropC, hCread, Option.some_bind', hTread, Option.map_some']
        have hfst : (baseInfo NS0.maxBase ds).1 = (baseInfo factorial vs).1 :=
          baseInfo_fst_congr_ns0 ds vs hmap'
        rw [hfst, Nat.mul_comm]

theorem baseInfo_fst_congr_ns1 :
    ∀ (ds : List NS1) (gs : List (List Nat)), ds.length = gs.length →
      (∀ p ∈ ds.zip gs, p.1.maxBase = ns1Max p.2) →
      (baseInfo NS1.maxBase ds).1 = (baseInfo ns1Max gs).1 := by
  intro ds
  induction ds with
  | nil =>
    intro gs hlen _
    match gs, hlen with
    | [], _ => rfl
  | cons d ds ih =>
    intro gs hlen hmax
    match gs, hlen with
    | g :: gs, hlen =>
      simp only [baseInfo]
      rw [ih gs (by simpa using hlen) fun p hp => hmax p (List.mem_cons_of_mem _ hp),
        hmax (d, g) (List.mem_cons_self _ _)]

/-- The whole-image permute/read round trip when every collected table is
nontrivial (`validGroups gs = gs`, so the digit/buffer zips align): permuting
all buffers and running the accumulation loop of `NS2::read_values`
reconstructs the total integer. -/
theorem ns2Level_spec :
    ∀ (ds : List NS1) (gs Vs : List (List Nat)),
      ds.length = gs.length → gs.length = Vs.length →
      (∀ p ∈ ds.zip gs, p.1.maxBase = ns1Max p.2 ∧ p.1.toNat < ns1Max p.2 ∧
        p.1.digits.map (fun d => d.digits.length + 1) = validSizes p.2 ∧
        (∀ d ∈ p.1.digits, DigitsWf d.digits (d.digits.length + 1) ∧
          d.toNat < factorial (d.digits.length + 1))) →
      (∀ p ∈ gs.zip Vs, (validSizes p.1).sum ≤ p.2.length ∧ p.2.Nodup) →
      ∃ Vs', ns2PermLoop ds Vs = some Vs' ∧
        ns2ReadAcc gs ((baseInfo ns1Max gs).2.map (·.2)) Vs' =
          some (weightedSum NS1.toNat (baseInfo NS1.maxBase ds).2) := by
  intro ds
  induction ds with
  | nil =>
    intro gs Vs hlen1 hlen2 _ _
    match gs, hlen1 with
    | [], _ =>
      match Vs, hlen2 with
      | [], _ => exact ⟨[], rfl, by simp [baseInfo, ns2ReadAcc, weightedSum]⟩
  | cons d ds ih =>
    intro gs Vs hlen1 hlen2 hprops hbufs
    match gs, hlen1 with
    | g :: gs, hlen1 =>
      match Vs, hlen2 with
      | V :: Vs, hlen2 =>
        obtain ⟨hmax, hlt, hsizes, hwfs⟩ :=
          hprops (d, g) (List.mem_cons_self _ _)
        obtain ⟨hsum, hnd⟩ := hbufs (g, V) (List.mem_cons_self _ _)
        obtain ⟨V', hV', _, hVread⟩ :=
          ns1Level_spec d.digits (validSizes g) V hsizes
            (fun e he => (hwfs e he).1) hnd hsum
        obtain ⟨Vs', hVs', hVsread⟩ :=
          ih gs Vs (by simpa using hlen1) (by simpa using hlen2)
            (fun p hp => hprops p (List.mem_cons_of_mem _ hp))
            (fun p hp => hbufs p (List.mem_cons_of_mem _ hp))
        refine ⟨V' :: Vs', ?_, ?_⟩
        · simp only [ns2PermLoop, NS1.permuteValues, hV', Option.some_bind', hVs',
            Option.map_some']
        · simp only [baseInfo, List.map_cons, ns2ReadAcc, weightedSum]
          have hvread : (NS1.readValues g V').map NS1.toNat = some d.toNat := by
            rw [NS1.readValues, hVread, Option.some_bind']
            obtain ⟨ns', hns', hns'val, _, _, _⟩ := ns1_tryFromInput_spec hlt
            rw [show weightedSum NS0.toNat (baseInfo NS0.maxBase d.digits).2 = d.toNat
              from rfl, hns', Option.map_some', hns'val]
          rw [hvread, Option.some_bind', hVsread, Option.map_some']
          rw [baseInfo_fst_congr_ns1 ds gs (by simpa using hlen1)
            fun p hp => (hprops p (List.mem_cons_of_mem _ hp)).1, Nat.mul_comm]

/-! ## Lemmas: big-endian byte strings and the secret engine -/

theorem beBytesToNat_le (bs : List Nat) :
    ∀ a : Nat, a ≤ bs.foldl (fun acc b => 256 * acc + b) a := by
  induction bs with
  | nil => intro a; simp
  | cons b bs ih =>
    intro a
    calc a ≤ 256 * a + b := by omega
      _ ≤ _ := ih (256 * a + b)

theorem beBytesToNat_pos {b : Nat} (hb : 0 < b) (bs : List Nat) :
    0 < beBytesToNat (b :: bs) := by
  unfold beBytesToNat
  rw [List.foldl_cons, show 256 * 0 + b = b from by omega]
  have := beBytesToNat_le bs b
  omega

theorem natToBeBytesLoop_congr :
    ∀ (n f1 f2 : Nat), n ≤ f1 → n ≤ f2 →
      natToBeBytesLoop f1 n = natToBeBytesLoop f2 n := by
  intro n
  induction n using Nat.strong_induction_on with
  | _ n ih =>
    match n with
    | 0 => intro f1 f2 _ _; cases f1 <;> cases f2 <;> rfl
    | m + 1 =>
      intro f1 f2 h1 h2
      match f1, f2, h1, h2 with
      | g1 + 1, g2 + 1, _, _ =>
        show natToBeBytesLoop g1 ((m + 1) / 256) ++ _ =
          natToBeBytesLoop g2 ((m + 1) / 256) ++ _
        have hd : (m + 1) / 256 < m + 1 := Nat.div_lt_self (Nat.succ_pos m) (by omega)
        rw [ih ((m + 1) / 256) hd g1 g2 (by omega) (by omega)]

theorem natToBeBytesGo_pos {n : Nat} (h : 0 < n) :
    natToBeBytesGo n = natToBeBytesGo (n / 256) ++ [n % 256] := by
  unfold natToBeBytesGo
  match n, h with
  | m + 1, _ =>
    show natToBeBytesLoop m ((m + 1) / 256) ++ [(m + 1) % 256] = _
    have hd : (m + 1) / 256 ≤ m := by
      have := Nat.div_lt_self (Nat.succ_pos m) (by omega : 1 < 256)
      omega
    rw [natToBeBytesLoop_congr ((m + 1) / 256) m ((m + 1) / 256) hd (Nat.le_refl _)]

/-- Minimal big-endian encoding inverts `from_bytes_be` on byte strings with a
nonzero leading byte. -/
theorem natToBeBytes_beBytesToNat {b : Nat} (hb : 0 < b) (hb256 : b < 256) :
    ∀ bs : List Nat, (∀ x ∈ bs, x < 256) →
      natToBeBytes (beBytesToNat (b :: bs)) = b :: bs := by
  intro bs
  induction bs using List.reverseRecOn with
  | nil =>
    intro _
    have hval : beBytesToNat [b] = b := by simp [beBytesToNat]
    rw [hval, natToBeBytes, if_neg (by omega), natToBeBytesGo_pos hb,
      Nat.div_eq_of_lt hb256, Nat.mod_eq_of_lt hb256,
      show natToBeBytesGo 0 = [] from rfl, List.nil_append]
  | append_singleton bs c ih =>
    intro hbytes
    have hc : c < 256 := hbytes c (by simp)
    have hbs : ∀ x ∈ bs, x < 256 := fun x hx => hbytes x (by simp [hx])
    have hM : 0 < beBytesToNat (b :: bs) := beBytesToNat_pos hb bs
    set M := beBytesToNat (b :: bs) with hMdef
    have hsplit : beBytesToNat (b :: (bs ++ [c])) = 256 * M + c := by
      rw [hMdef]
      unfold beBytesToNat
      rw [show b :: (bs ++ [c]) = (b :: bs) ++ [c] from rfl, List.foldl_append]
      rfl
    rw [hsplit, natToBeBytes, if_neg (by omega), natToBeBytesGo_pos (by omega)]
    have hdiv : (256 * M + c) / 256 = M := by
      rw [Nat.mul_add_div (by omega), Nat.div_eq_of_lt hc, Nat.add_zero]
    have hmod : (256 * M + c) % 256 = c := by
      omega
    rw [hdiv, hmod]
    have hgo : natToBeBytesGo M = b :: bs := by
      have := ih hbs
      rwa [natToBeBytes, if_neg (by omega)] at this
    rw [hgo, List.cons_append]

theorem validGroups_eq_self {S : List (List Nat)} (h : ∀ g ∈ S, (validSizes g).isEmpty = false) :
    validGroups S = S := by
  unfold validGroups
  rw [List.filter_eq_self]
  intro g hg
  simp [h g hg]

/-- End-to-end round trip of the secret engine over the collected DHT tables:
with every table nontrivial (some count `≥ 2`), distinct in-table values, value
buffers at least as long as the valid-count sum, a nonempty byte secret, and
the magic-prefixed integer strictly below the image capacity, writing then
reading returns exactly the secret. -/
theorem writeRead_secret_roundtrip (S V : List (List Nat)) (secret : List Nat)
    (hvalid : ∀ g ∈ S, (validSizes g).isEmpty = false)
    (hlen : S.length = V.length)
    (hbufs : ∀ p ∈ S.zip V, (validSizes p.1).sum ≤ p.2.length ∧ p.2.Nodup)
    (hsecret : secret ≠ [])
    (hbytes : ∀ b ∈ secret, b < 256)
    (hcap : beBytesToNat (encodeSecret secret) < ns2Max S) :
    ∃ V', writeSecretTables S V secret = some V' ∧
      readSecretTables S V' = some (some secret) := by
  set N := beBytesToNat (encodeSecret secret) with hN
  obtain ⟨ns, hns, hnsval, hnslen, hnsprops⟩ := ns2_tryFromInput_spec hcap
  have hvg : validGroups S = S := validGroups_eq_self hvalid
  rw [hvg] at hnslen hnsprops
  obtain ⟨V', hV', hVread⟩ :=
    ns2Level_spec ns.digits S V (by omega) hlen
      (fun p hp => (hnsprops p hp).imp id fun h => h.imp id fun h => h.imp id
        fun h d hd => h d hd)
      hbufs
  refine ⟨V', ?_, ?_⟩
  · rw [writeSecretTables, ← hN, hns]
    exact hV'
  · rw [readSecretTables, NS2.readValues, hvg, hVread,
      show weightedSum NS1.toNat (baseInfo NS1.maxBase ns.digits).2 = ns.toNat from rfl,
      hnsval, Option.some_bind', hN]
    obtain ⟨ns2, hns2, hns2val, _, _⟩ := ns2_tryFromInput_spec hcap
    rw [← hN, hns2, Option.map_some', hns2val, hN]
    have henc : natToBeBytes (beBytesToNat (encodeSecret secret)) = encodeSecret secret := by
      apply natToBeBytes_beBytesToNat (by omega) (by omega)
      intro x hx
      rcases List.mem_cons.mp hx with h | hx2
      · omega
      · exact hbytes x hx2
    rw [henc, encodeSecret, probeSecret]
    have hlen2 : (0xBE :: 0xEF :: secret).length = secret.length + 2 := by simp
    have hposlen : secret.length ≠ 0 := fun h => hsecret (List.eq_nil_of_length_eq_zero h)
    rw [if_neg (by omega)]
    simp

/-! ## Lemmas: idempotence of value permutation -/

/-- `NS1`'s chunk loop is idempotent on a distinct buffer of sufficient length:
the permuted buffer permutes to itself. -/
theorem ns1PermLoop_idem :
    ∀ (ds : List NS0) (V : List Nat),
      (∀ d ∈ ds, DigitsWf d.digits (d.digits.length + 1)) →
      (ds.map fun d => d.digits.length + 1).sum ≤ V.length → V.Nodup →
      ∃ V', ns1PermLoop ds V = some V' ∧ V'.length = V.length ∧ V'.Perm V ∧
        ns1PermLoop ds V' = some V' := by
  intro ds
  induction ds with
  | nil => intro V _ _ _; exact ⟨V, rfl, rfl, List.Perm.refl V, rfl⟩
  | cons d ds ih =>
    intro V hwfs hsum hnd
    set x := d.digits.length + 1 with hxdef
    rw [List.map_cons, List.sum_cons] at hsum
    have hxle : x ≤ V.length := by omega
    have htake_len : (V.take x).length = x := by rw [List.length_take]; omega
    obtain ⟨C', hC', hCperm, hClen, _, _, hCself⟩ :=
      d.permuteValues_spec (V.take x)
        (by rw [htake_len]; exact hwfs d (List.mem_cons_self d ds))
        (by rw [htake_len]) ((List.take_sublist x V).nodup hnd)
    obtain ⟨T', hT', hTlen, hTperm, hTself⟩ :=
      ih (V.drop x) (fun e he => hwfs e (List.mem_cons_of_mem d he))
        (by rw [List.length_drop]; omega) ((List.drop_sublist x V).nodup hnd)
    have hClen' : C'.length = x := by rw [hClen, htake_len]
    refine ⟨C' ++ T', ?_, ?_, ?_, ?_⟩
    · simp only [ns1PermLoop, ← hxdef, if_pos hxle, hC', Option.some_bind', hT',
        Option.map_some']
    · rw [List.length_append, hClen', hTlen, List.length_drop]; omega
    · calc (C' ++ T').Perm (V.take x ++ V.drop x) := (hCperm.append hTperm)
        _ = V := List.take_append_drop x V
    · have hxle2 : x ≤ (C' ++ T').length := by
        rw [List.length_append, hClen']; omega
      simp only [ns1PermLoop, ← hxdef, if_pos hxle2,
        List.take_left' hClen', List.drop_left' hClen', hCself, Option.some_bind',
        hTself, Option.map_some']

/-- `NS2`'s zip loop is idempotent buffer by buffer. -/
theorem ns2PermLoop_idem :
    ∀ (ds : List NS1) (Vs : List (List Nat)),
      (∀ p ∈ ds.zip Vs,
        (∀ d ∈ p.1.digits, DigitsWf d.digits (d.digits.length + 1)) ∧
        (p.1.digits.map fun d => d.digits.length + 1).sum ≤ p.2.length ∧ p.2.Nodup) →
      ∃ Vs', ns2PermLoop ds Vs = some Vs' ∧ ns2PermLoop ds Vs' = some Vs' := by
  intro ds
  induction ds with
  | nil =>
    intro Vs _
    cases Vs with
    | nil => exact ⟨[], rfl, rfl⟩
    | cons V Vs => exact ⟨V :: Vs, rfl, rfl⟩
  | cons d ds ih =>
    intro Vs hprops
    cases Vs with
    | nil => exact ⟨[], rfl, rfl⟩
    | cons V Vs =>
      obtain ⟨hwfs, hsum, hnd⟩ := hprops (d, V) (List.mem_cons_self _ _)
      obtain ⟨V', hV', _, _, hVself⟩ := ns1PermLoop_idem d.digits V hwfs hsum hnd
      obtain ⟨Vs', hVs', hVsself⟩ := ih Vs fun p hp => hprops p (List.mem_cons_of_mem _ hp)
      refine ⟨V' :: Vs', ?_, ?_⟩
      · simp only [ns2PermLoop, NS1.permuteValues, hV', Option.some_bind', hVs',
          Option.map_some']
      · simp only [ns2PermLoop, NS1.permuteValues, hVself, Option.some_bind', hVsself,
          Option.map_some']

/-! ## Lemmas: the legacy `FNS` engine versus `NS0` -/

theorem factorial_le_factorial {m n : Nat} (h : m ≤ n) : factorial m ≤ factorial n := by
  induction n with
  | zero => match m, h with | 0, _ => exact Nat.le_refl _
  | succ n ih =>
    rcases Nat.lt_or_ge m (n + 1) with h2 | h2
    · calc factorial m ≤ factorial n := ih (by omega)
        _ ≤ (n + 1) * factorial n := by
            have := factorial_pos n
            calc factorial n = 1 * factorial n := by omega
              _ ≤ (n + 1) * factorial n := Nat.mul_le_mul_right _ (by omega)
        _ = factorial (n + 1) := rfl
    · have : m = n + 1 := by omega
      subst this
      exact Nat.le_refl _

theorem self_lt_factorial_succ (n : Nat) : n < factorial (n + 1) := by
  induction n with
  | zero => simp [factorial]
  | succ n ih =>
    show n + 2 ≤ (n + 2) * factorial (n + 1)
    have := factorial_pos (n + 1)
    calc n + 2 = (n + 2) * 1 := by omega
      _ ≤ (n + 2) * factorial (n + 1) := Nat.mul_le_mul_left _ (by omega)

theorem fnsNumDigitsGo_ge (N : Nat) :
    ∀ (fuel k : Nat), N < factorial (k + fuel + 1) →
      N < factorial (fnsNumDigitsGo N fuel k + 1) := by
  intro fuel
  induction fuel with
  | zero => intro k h; simpa [fnsNumDigitsGo] using h
  | succ fuel ih =>
    intro k h
    rw [fnsNumDigitsGo]
    by_cases hc : N < factorial (k + 1)
    · rw [if_pos hc]; exact hc
    · rw [if_neg hc]
      exact ih (k + 1) (by rw [show k + 1 + fuel + 1 = k + (fuel + 1) + 1 from by omega]; exact h)

theorem fnsNumDigitsGo_le (N : Nat) :
    ∀ (fuel k m : Nat), k ≤ m → N < factorial (m + 1) → fnsNumDigitsGo N fuel k ≤ m := by
  intro fuel
  induction fuel with
  | zero => intro k m hk _; simpa [fnsNumDigitsGo] using hk
  | succ fuel ih =>
    intro k m hk hm
    rw [fnsNumDigitsGo]
    by_cases hc : N < factorial (k + 1)
    · rw [if_pos hc]; exact hk
    · rw [if_neg hc]
      have hkm : k ≠ m := by
        intro he
        subst he
        exact hc hm
      exact ih (k + 1) m (by omega) hm

theorem fnsNumDigits_lt (N : Nat) : N < factorial (fnsNumDigits N + 1) := by
  apply fnsNumDigitsGo_ge N N 1
  have h1 : N < factorial (N + 1) :=
    Nat.lt_of_lt_of_le (self_lt_factorial_succ N) (Nat.le_refl _)
  exact Nat.lt_of_lt_of_le h1 (factorial_le_factorial (by omega))

theorem fnsNumDigits_le {N m : Nat} (hm : 1 ≤ m) (h : N < factorial (m + 1)) :
    fnsNumDigits N ≤ m :=
  fnsNumDigitsGo_le N N 1 m hm h

/-- Extracting digits over a longer descending-factorial base list only
prepends zero digits, as long as the value fits the shorter list. -/
theorem ns0Digits_pad (k : Nat) :
    ∀ (n N : Nat), k + 1 ≤ n → N < factorial (k + 1) →
      ns0Digits N (ns0Bases n) =
        List.replicate (n - (k + 1)) 0 ++ ns0Digits N (ns0Bases (k + 1)) := by
  intro n
  induction n with
  | zero => intro N h _; omega
  | succ n ih =>
    intro N h hN
    rcases Nat.lt_or_ge (k + 1) (n + 1) with h2 | h2
    · have hn1 : 1 ≤ n := by omega
      rw [ns0Bases_succ n hn1]
      have hNf : N < factorial n := Nat.lt_of_lt_of_le hN (factorial_le_factorial (by omega))
      have hdiv : N / factorial n = 0 := Nat.div_eq_of_lt hNf
      have hmod : N % factorial n = N := Nat.mod_eq_of_lt hNf
      rw [ns0Digits, hdiv, hmod, ih N (by omega) hN,
        show n + 1 - (k + 1) = (n - (k + 1)) + 1 from by omega, List.replicate_succ]
      rfl
    · have : k + 1 = n + 1 := by omega
      rw [← this]
      simp

theorem fnsSumLoop_append (d : Nat) :
    ∀ (l : List Nat) (i : Nat),
      fnsSumLoop i (l ++ [d]) = fnsSumLoop i l + d * factorial (i + l.length + 1) := by
  intro l
  induction l with
  | nil => intro i; simp [fnsSumLoop]
  | cons x xs ih =>
    intro i
    show x * factorial (i + 1) + fnsSumLoop (i + 1) (xs ++ [d]) =
      x * factorial (i + 1) + fnsSumLoop (i + 1) xs + d * factorial (i + (xs.length + 1) + 1)
    rw [ih (i + 1), show i + 1 + xs.length + 1 = i + (xs.length + 1) + 1 from by omega]
    omega

theorem ns0_toNat_cons (d : Nat) (ds : List Nat) :
    NS0.toNat ⟨d :: ds⟩ = d * factorial (ds.length + 1) + NS0.toNat ⟨ds⟩ := by
  show weightedSum id ((d :: ds).zip (ns0Bases (ds.length + 1 + 1))) = _
  rw [ns0Bases_succ (ds.length + 1) (by omega), List.zip_cons_cons]
  rfl

/-- `BigUint::from(&FNS)` and `BigUint::from(NS0)` agree on equal digit vectors. -/
theorem fns_toNat_eq_ns0 : ∀ ds : List Nat, FNS.toNat ⟨ds⟩ = NS0.toNat ⟨ds⟩ := by
  intro ds
  induction ds with
  | nil => rfl
  | cons d ds ih =>
    have h1 : FNS.toNat ⟨d :: ds⟩ = fnsSumLoop 0 (ds.reverse ++ [d]) := by
      rw [FNS.toNat, List.reverse_cons]
    rw [h1, fnsSumLoop_append, ns0_toNat_cons, List.length_reverse,
      show fnsSumLoop 0 ds.reverse = FNS.toNat ⟨ds⟩ from rfl, ih]
    simp only [Nat.zero_add]
    omega

/-- Stripping leading zero digits does not change the converted integer. -/
theorem ns0_toNat_stripZeros : ∀ ds : List Nat, NS0.toNat ⟨stripZeros ds⟩ = NS0.toNat ⟨ds⟩
  | [] => rfl
  | [d] => by
    match d with
    | 0 => rfl
    | _ + 1 => rfl
  | 0 :: x :: xs => by
    rw [show stripZeros (0 :: x :: xs) = stripZeros (x :: xs) from rfl,
      ns0_toNat_stripZeros (x :: xs),
      show NS0.toNat ⟨0 :: x :: xs⟩ = 0 * factorial ((x :: xs).length + 1) + NS0.toNat ⟨x :: xs⟩
        from ns0_toNat_cons 0 (x :: xs)]
    omega
  | (d + 1) :: x :: xs => rfl

/-! ## Lemmas: the Huffman code-table builder -/

/-- The emit loop's observable output — the codeword bit-vectors and how many
symbols remain — depends on the symbol list only through its length. -/
theorem chtEmit_obs :
    ∀ (count code size : Nat) (v1 v2 : List Nat), v1.length = v2.length →
      (chtEmit count code size v1).map (fun r => (r.1.map Prod.snd, r.2.length)) =
      (chtEmit count code size v2).map (fun r => (r.1.map Prod.snd, r.2.length)) := by
  intro count
  induction count with
  | zero => intro code size v1 v2 h; simp [chtEmit, h]
  | succ count ih =>
    intro code size v1 v2 h
    cases v1 with
    | nil =>
      cases v2 with
      | nil => rfl
      | cons y ys => simp at h
    | cons x xs =>
      cases v2 with
      | nil => simp at h
      | cons y ys =>
        simp only [List.length_cons, Nat.add_right_cancel_iff] at h
        have hih := ih ((code + 1) % 65536) size xs ys h
        simp only [chtEmit]
        cases h1 : chtEmit count ((code + 1) % 65536) size xs with
        | none =>
          rw [h1] at hih
          cases h2 : chtEmit count ((code + 1) % 65536) size ys with
          | none => rfl
          | some r2 => rw [h2] at hih; simp at hih
        | some r1 =>
          rw [h1] at hih
          cases h2 : chtEmit count ((code + 1) % 65536) size ys with
          | none => rw [h2] at hih; simp at hih
          | some r2 =>
            rw [h2] at hih
            simp only [Option.map_some', Option.some.injEq, Prod.mk.injEq] at hih ⊢
            simp [hih.1, hih.2]

/-- The outer builder loop's observable output — codeword bit-vectors and the
sentinel — likewise depends on the symbol list only through its length. -/
theorem chtLoop_obs :
    ∀ (codes : List (Nat × Nat)) (code lastSize : Nat) (v1 v2 : List Nat),
      v1.length = v2.length →
      (chtLoop codes code lastSize v1).map (fun r => (r.1.map Prod.snd, r.2)) =
      (chtLoop codes code lastSize v2).map (fun r => (r.1.map Prod.snd, r.2)) := by
  intro codes
  induction codes with
  | nil => intro code lastSize v1 v2 _; rfl
  | cons sc rest ih =>
    intro code lastSize v1 v2 h
    obtain ⟨size, count⟩ := sc
    simp only [chtLoop]
    have hemit := chtEmit_obs count (code * 2 ^ (size - lastSize) % 65536) size v1 v2 h
    cases h1 : chtEmit count (code * 2 ^ (size - lastSize) % 65536) size v1 with
    | none =>
      rw [h1] at hemit
      cases h2 : chtEmit count (code * 2 ^ (size - lastSize) % 65536) size v2 with
      | none => rfl
      | some r2 => rw [h2] at hemit; simp at hemit
    | some r1 =>
      rw [h1] at hemit
      cases h2 : chtEmit count (code * 2 ^ (size - lastSize) % 65536) size v2 with
      | none => rw [h2] at hemit; simp at hemit
      | some r2 =>
        rw [h2] at hemit
        simp only [Option.map_some', Option.some.injEq, Prod.mk.injEq] at hemit
        obtain ⟨hsnd, hlen⟩ := hemit
        have hloop := ih ((code * 2 ^ (size - lastSize) % 65536 + count) % 65536) size r1.2
          r2.2 hlen
        simp only [Option.some_bind']
        cases h3 : chtLoop rest ((code * 2 ^ (size - lastSize) % 65536 + count) % 65536)
            size r1.2 with
        | none =>
          rw [h3] at hloop
          cases h4 : chtLoop rest ((code * 2 ^ (size - lastSize) % 65536 + count) % 65536)
              size r2.2 with
          | none => rfl
          | some q2 => rw [h4] at hloop; simp at hloop
        | some q1 =>
          rw [h3] at hloop
          cases h4 : chtLoop rest ((code * 2 ^ (size - lastSize) % 65536 + count) % 65536)
              size r2.2 with
          | none => rw [h4] at hloop; simp at hloop
          | some q2 =>
            rw [h4] at hloop
            simp only [Option.map_some', Option.some.injEq, Prod.mk.injEq] at hloop ⊢
            exact ⟨by rw [List.map_append, List.map_append, hsnd, hloop.1], by rw [hloop.2]⟩

/-- The whole builder's codeword bit-vectors (including the sentinel entry)
depend on the symbol list only through its length; the symbols only relabel
the entries. -/
theorem constructHuffmanTable_obs (sizes v1 v2 : List Nat) (h : v1.length = v2.length) :
    (constructHuffmanTable sizes v1).map (List.map Prod.snd) =
      (constructHuffmanTable sizes v2).map (List.map Prod.snd) := by
  unfold constructHuffmanTable
  have hloop := chtLoop_obs
    (sizes.enum.filterMap fun p => if p.2 = 0 then none else some (p.1 + 1, p.2)) 0 0 v1 v2 h
  cases h1 : chtLoop (sizes.enum.filterMap fun p => if p.2 = 0 then none else
      some (p.1 + 1, p.2)) 0 0 v1 with
  | none =>
    rw [h1] at hloop
    cases h2 : chtLoop (sizes.enum.filterMap fun p => if p.2 = 0 then none else
        some (p.1 + 1, p.2)) 0 0 v2 with
    | none => rfl
    | some r2 => rw [h2] at hloop; simp at hloop
  | some r1 =>
    rw [h1] at hloop
    cases h2 : chtLoop (sizes.enum.filterMap fun p => if p.2 = 0 then none else
        some (p.1 + 1, p.2)) 0 0 v2 with
    | none => rw [h2] at hloop; simp at hloop
    | some r2 =>
      rw [h2] at hloop
      simp only [Option.map_some', Option.some.injEq, Prod.mk.injEq] at hloop
      obtain ⟨hsnd, hsent⟩ := hloop
      simp only [Option.map_some', Option.some.injEq]
      rw [← hsent]
      cases h3 : r1.2 with
      | none => simpa using hsnd
      | some last => simp only [List.map_append, hsnd, List.map_cons, List.map_nil]

/-! ## The claims -/

/-- **C1** (counterexample): the end-to-end round trip fails as the claim
states it.  (a) With one nontrivial 9-value DHT table, writing the empty
secret succeeds but reading the output reports "no message" (`some none`)
instead of `Some("")`: the recovered big-endian bytes are exactly the two
magic bytes and `read_secret` requires `data.len() > 2`.  (b) With a trivial
one-value table preceding a nontrivial one, `NS2::permute_values` zips the
nontrivial table's digit against the trivial table's one-byte buffer and the
`split_at_mut` inside panics (`none`), so writing "hello" produces no output
even though its magic-prefixed integer is below `MAX`. -/
theorem C1_counterexample :
    (writeSecretTables [[9]] [[0, 1, 2, 3, 4, 5, 6, 7, 8]] [] =
        some [[1, 2, 6, 8, 3, 5, 4, 7, 0]] ∧
      readSecretTables [[9]] [[1, 2, 6, 8, 3, 5, 4, 7, 0]] = some none) ∧
    (beBytesToNat (encodeSecret [104, 101, 108, 108, 111]) < ns2Max [[1], [13, 13]] ∧
      writeSecretTables [[1], [13, 13]] [[5], List.range 26]
        [104, 101, 108, 108, 111] = none) :=
  ⟨⟨by decide, by decide⟩, ⟨by decide, by decide⟩⟩

/-- **C1** (amended): for tables that are all nontrivial (each has some
codeword-length count `≥ 2`, so the digit/buffer zips stay aligned), with
pairwise-distinct in-table values, buffers at least as long as the sum of the
valid counts, a **nonempty** byte secret, and the magic-prefixed integer
strictly below the image's `MAX`, applying the table-level `read_secret` to
the output of the table-level `write_secret` returns exactly the secret. -/
theorem C1_write_read_secret_roundtrip (S V : List (List Nat)) (secret : List Nat)
    (hvalid : ∀ g ∈ S, (validSizes g).isEmpty = false)
    (hlen : S.length = V.length)
    (hbufs : ∀ p ∈ S.zip V, (validSizes p.1).sum ≤ p.2.length ∧ p.2.Nodup)
    (hsecret : secret ≠ [])
    (hbytes : ∀ b ∈ secret, b < 256)
    (hcap : beBytesToNat (encodeSecret secret) < ns2Max S) :
    ∃ V', writeSecretTables S V secret = some V' ∧
      readSecretTables S V' = some (some secret) :=
  writeRead_secret_roundtrip S V secret hvalid hlen hbufs hsecret hbytes hcap

/-- **C1** witness: a four-nontrivial-table image carrying `"hello"`. -/
theorem C1_roundtrip_witness :
    ∃ V', writeSecretTables [[12], [12], [2], [2]]
        [[0, 1, 2, 3, 4, 5, 6, 7, 8, 9, 10, 11],
         [0, 1, 2, 3, 4, 5, 6, 7, 8, 9, 10, 11], [0, 1], [0, 1]]
        [104, 101, 108, 108, 111] = some V' ∧
      readSecretTables [[12], [12], [2], [2]] V' =
        some (some [104, 101, 108, 108, 111]) :=
  C1_write_read_secret_roundtrip [[12], [12], [2], [2]]
    [[0, 1, 2, 3, 4, 5, 6, 7, 8, 9, 10, 11],
     [0, 1, 2, 3, 4, 5, 6, 7, 8, 9, 10, 11], [0, 1], [0, 1]]
    [104, 101, 108, 108, 111]
    (by decide) (by decide) (by decide) (by decide) (by decide) (by decide)

/-- **C2**: nested FNS integer round trip.  For every two-level size profile
`S` and every `N < MAX(S)`, `NS2::try_from_input` succeeds and
`BigUint::from` of the digit structure restores `N`; likewise for `NS1` over a
single table's counts and `NS0` over a single length (lengths `< 2`
contribute nothing through the `valid()` filters). -/
theorem C2_nested_fns_roundtrip :
    (∀ (S : List (List Nat)) (N : Nat), N < ns2Max S →
      (NS2.tryFromInput N S).map NS2.toNat = some N) ∧
    (∀ (g : List Nat) (N : Nat), N < ns1Max g →
      (NS1.tryFromInput N g).map NS1.toNat = some N) ∧
    (∀ (n N : Nat), N < factorial n →
      (NS0.tryFromInput N n).map NS0.toNat = some N) := by
  refine ⟨?_, ?_, ?_⟩
  · intro S N h
    obtain ⟨ns, hns, hval, _, _⟩ := ns2_tryFromInput_spec h
    rw [hns, Option.map_some', hval]
  · intro g N h
    obtain ⟨ns, hns, hval, _, _, _⟩ := ns1_tryFromInput_spec h
    rw [hns, Option.map_some', hval]
  · intro n N h
    obtain ⟨ns, hns, hval, _, _⟩ := ns0_tryFromInput_spec h
    rw [hns, Option.map_some', hval]

theorem C2_witness :
    (103 < ns2Max [[3, 3], [2, 2]] ∧
      (NS2.tryFromInput 103 [[3, 3], [2, 2]]).map NS2.toNat = some 103) ∧
    (679 < ns1Max [0, 6] ∧ (NS1.tryFromInput 679 [0, 6]).map NS1.toNat = some 679) ∧
    (119 < factorial 5 ∧ (NS0.tryFromInput 119 5).map NS0.toNat = some 119) :=
  ⟨⟨by decide, C2_nested_fns_roundtrip.1 [[3, 3], [2, 2]] 103 (by decide)⟩,
   ⟨by decide, C2_nested_fns_roundtrip.2.1 [0, 6] 679 (by decide)⟩,
   ⟨by decide, C2_nested_fns_roundtrip.2.2 5 119 (by decide)⟩⟩

/-- **C3**: value-list round trip.  For every vector of pairwise-distinct
bytes of length `n ≥ 1` and `N < n!`, permuting with the FNS of `N`
(`V[i] = sort(V)[π[i]]`) and reading back recovers an FNS of value `N`;
concretely `FNS(3)` sends `[3, 5, 10]` to `[5, 10, 3]` and
`read_values([5, 10, 3])` returns `3`. -/
theorem C3_value_list_roundtrip :
    (∀ (V : List Nat) (N : Nat), V.Nodup → 1 ≤ V.length → N < factorial V.length →
      ∃ ns V', NS0.tryFromInput N V.length = some ns ∧ ns.permuteValues V = some V' ∧
        (NS0.readValues V').map NS0.toNat = some N) ∧
    ((NS0.tryFromInput 3 3).bind (fun ns => ns.permuteValues [3, 5, 10]) =
        some [5, 10, 3] ∧
      (NS0.readValues [5, 10, 3]).map NS0.toNat = some 3) := by
  constructor
  · intro V N hnd hpos hN
    obtain ⟨ns, hns, hval, hdlen, hwf⟩ := ns0_tryFromInput_spec hN
    obtain ⟨V', hperm, _, _, _, hread, _⟩ :=
      ns.permuteValues_spec V hwf (by omega) hnd
    exact ⟨ns, V', hns, hperm, by rw [hread, Option.map_some', hval]⟩
  · exact ⟨by decide, by decide⟩

theorem C3_witness :
    ([3, 5, 10] : List Nat).Nodup ∧ 1 ≤ ([3, 5, 10] : List Nat).length ∧
      3 < factorial ([3, 5, 10] : List Nat).length ∧
      (∃ ns V', NS0.tryFromInput 3 ([3, 5, 10] : List Nat).length = some ns ∧
        ns.permuteValues [3, 5, 10] = some V' ∧
        (NS0.readValues V').map NS0.toNat = some 3) :=
  ⟨by decide, by decide, by decide,
    C3_value_list_roundtrip.1 [3, 5, 10] 3 (by decide) (by decide) (by decide)⟩

/-- **C4**: capacity overflow.  `NS2::try_from_input` returns `None` exactly
when `N ≥ MAX` (and succeeds otherwise), and when the magic-prefixed secret
integer reaches `MAX` the table-level write path fails without producing any
rewritten tables. -/
theorem C4_secret_too_large :
    (∀ (N : Nat) (S : List (List Nat)), NS2.tryFromInput N S = none ↔ ns2Max S ≤ N) ∧
    (∀ (S V : List (List Nat)) (secret : List Nat),
      ns2Max S ≤ beBytesToNat (encodeSecret secret) →
      writeSecretTables S V secret = none) := by
  have h1 : ∀ (N : Nat) (S : List (List Nat)),
      NS2.tryFromInput N S = none ↔ ns2Max S ≤ N := by
    intro N S
    constructor
    · intro h
      by_contra hc
      obtain ⟨ns, hns, _, _, _⟩ := ns2_tryFromInput_spec (Nat.lt_of_not_le hc)
      rw [hns] at h
      exact Option.noConfusion h
    · exact ns2_tryFromInput_none
  refine ⟨h1, fun S V secret h => ?_⟩
  unfold writeSecretTables
  rw [(h1 _ _).mpr h]

theorem C4_witness :
    (NS2.tryFromInput 2 [[2]] = none ↔ ns2Max [[2]] ≤ 2) ∧
    (ns2Max [[2]] ≤ beBytesToNat (encodeSecret []) ∧
      writeSecretTables [[2]] [[0, 1]] [] = none) :=
  ⟨C4_secret_too_large.1 2 [[2]],
   ⟨by decide, C4_secret_too_large.2 [[2]] [[0, 1]] [] (by decide)⟩⟩

/-- **C5** (counterexample): probing exactly the two magic bytes reports
"no message" even though the first two bytes are `0xBE 0xEF` — the outcome is
not decided solely by the leading two bytes (the `data.len() <= 2` test fires
first). -/
theorem C5_counterexample : probeSecret [0xBE, 0xEF] = none := by decide

/-- **C5** (amended): the read probe returns the remainder after the first
two bytes exactly when the decoded byte string is longer than two bytes *and*
starts with `0xBE 0xEF`; in every other case — including a recovered string of
exactly the two magic bytes — it reports "no message". -/
theorem C5_magic_probe (data : List Nat) :
    probeSecret data =
      if 2 < data.length ∧ data.getD 0 0 = 0xBE ∧ data.getD 1 0 = 0xEF then
        some (data.drop 2)
      else none := by
  unfold probeSecret
  by_cases h1 : data.length ≤ 2
  · rw [if_pos h1, if_neg]
    rintro ⟨hlen, -⟩
    omega
  · rw [if_neg h1]
    by_cases h2 : data.getD 0 0 = 0xBE
    · rw [if_neg (fun hne => hne h2)]
      by_cases h3 : data.getD 1 0 = 0xEF
      · rw [if_neg (fun hne => hne h3), if_pos ⟨by omega, h2, h3⟩]
      · rw [if_pos h3, if_neg fun hc => h3 hc.2.2]
    · rw [if_pos h2, if_neg fun hc => h2 hc.2.1]

/-- **C6**: the Huffman builder is a pure function of `(sizes, values)`
(determinism is definitional in this embedding), and permuting `values` with
`sizes` held fixed leaves every entry's codeword bit-vector — including the
sentinel — unchanged: only the symbol-to-codeword assignment moves, never the
set of codeword lengths in use. -/
theorem C6_huffman_codeword_invariance (sizes values values' : List Nat)
    (hperm : values'.Perm values) :
    (constructHuffmanTable sizes values').map (List.map Prod.snd) =
      (constructHuffmanTable sizes values).map (List.map Prod.snd) :=
  constructHuffmanTable_obs sizes values' values hperm.length_eq

theorem C6_witness :
    ([9, 7, 8] : List Nat).Perm [7, 8, 9] ∧
      (constructHuffmanTable [0, 2, 1] [9, 7, 8]).map (List.map Prod.snd) =
        (constructHuffmanTable [0, 2, 1] [7, 8, 9]).map (List.map Prod.snd) :=
  ⟨by decide, C6_huffman_codeword_invariance [0, 2, 1] [7, 8, 9] [9, 7, 8] (by decide)⟩

/-- **C7**: the SOS guard of `DhtWriter::process_segment` rejects exactly when
`spectral_start != 0 || spectral_end != 64`, passes baseline scans
(`ss = 0`, `se = 64`), and rejects every progressive scan: any scan with
parsed `spectral_end < 64`, and any scan with nonzero approximation bits that
respects the progressive-mode constraint that a DC-band scan (`ss = 0`) has a
raw `Se` byte of `0` (so its parsed `spectral_end` is `1`). -/
theorem C7_unsupported_scan :
    (∀ ss se : Nat, sosRejected ss se = true ↔ ¬(ss = 0 ∧ se = 64)) ∧
    sosRejected 0 64 = false ∧
    (∀ ss seByte : Nat, parseSpectralEnd seByte < 64 →
      sosRejected ss (parseSpectralEnd seByte) = true) ∧
    (∀ ss seByte ah al : Nat, ¬(ah = 0 ∧ al = 0) → (ss = 0 → seByte = 0) →
      sosRejected ss (parseSpectralEnd seByte) = true) := by
  refine ⟨?_, by decide, ?_, ?_⟩
  · intro ss se
    unfold sosRejected
    rw [Bool.or_eq_true, bne_iff_ne, bne_iff_ne]
    omega
  · intro ss seByte h
    unfold sosRejected parseSpectralEnd at *
    rw [Bool.or_eq_true, bne_iff_ne, bne_iff_ne]
    omega
  · intro ss seByte ah al _ hdc
    unfold sosRejected parseSpectralEnd
    rw [Bool.or_eq_true, bne_iff_ne, bne_iff_ne]
    by_cases h : ss = 0
    · right
      have := hdc h
      omega
    · left
      exact h

theorem C7_witness :
    (sosRejected 1 64 = true ↔ ¬(1 = 0 ∧ 64 = 64)) ∧
    (parseSpectralEnd 0 < 64 ∧ sosRejected 2 (parseSpectralEnd 0) = true) ∧
    (¬(1 = 0 ∧ 0 = 0) ∧ ((0 : Nat) = 0 → (0 : Nat) = 0) ∧
      sosRejected 0 (parseSpectralEnd 0) = true) :=
  ⟨C7_unsupported_scan.1 1 64,
   ⟨by decide, C7_unsupported_scan.2.2.1 2 0 (by decide)⟩,
   ⟨by decide, fun h => h, C7_unsupported_scan.2.2.2 0 0 1 0 (by decide) (fun h => rfl)⟩⟩

/-- **C8** (code-bug evidence): in the DC step of `decode_block`, a decoded
DC symbol outside `0..=11` hits the `_ => panic!()` arm — the process aborts
instead of surfacing a `BitstreamError` to the caller as the specification's
error policy requires; for symbols in `0..=11` with enough input bits the
step succeeds, reading `S` raw bits. -/
theorem C8_dc_step_behavior :
    (∀ value remaining : Nat, 11 < value → dcStep value remaining = DcStepResult.aborts) ∧
    (∀ value remaining : Nat, value ≤ 11 → value ≤ remaining →
      dcStep value remaining = DcStepResult.ok (if value = 0 then 0 else value)) := by
  constructor
  · intro v r h
    unfold dcStep
    rw [if_neg (by omega), if_neg (by omega)]
  · intro v r h hr
    unfold dcStep
    by_cases h0 : v = 0
    · rw [if_pos h0, if_pos h0]
    · rw [if_neg h0, if_pos h, if_pos hr, if_neg h0]

theorem C8_witness : 11 < 12 ∧ dcStep 12 0 = DcStepResult.aborts :=
  ⟨by decide, C8_dc_step_behavior.1 12 0 (by decide)⟩

/-- **C9**: idempotence of value permutation at every nesting level — on a
well-formed digit structure and a pairwise-distinct buffer of matching size,
applying `permute_values` twice gives the same buffer as applying it once
(the permuted buffer permutes to itself, because the sorted copy it indexes
into is unchanged). -/
theorem C9_permute_values_idempotent :
    (∀ (ns : NS0) (V : List Nat), DigitsWf ns.digits V.length →
      ns.digits.length + 1 = V.length → V.Nodup →
      ∃ V', ns.permuteValues V = some V' ∧ ns.permuteValues V' = some V') ∧
    (∀ (ns : NS1) (V : List Nat),
      (∀ d ∈ ns.digits, DigitsWf d.digits (d.digits.length + 1)) →
      (ns.digits.map fun d => d.digits.length + 1).sum ≤ V.length → V.Nodup →
      ∃ V', ns.permuteValues V = some V' ∧ ns.permuteValues V' = some V') ∧
    (∀ (ns : NS2) (Vs : List (List Nat)),
      (∀ p ∈ ns.digits.zip Vs,
        (∀ d ∈ p.1.digits, DigitsWf d.digits (d.digits.length + 1)) ∧
        (p.1.digits.map fun d => d.digits.length + 1).sum ≤ p.2.length ∧ p.2.Nodup) →
      ∃ Vs', ns.permuteValues Vs = some Vs' ∧ ns.permuteValues Vs' = some Vs') := by
  refine ⟨?_, ?_, ?_⟩
  · intro ns V hwf hlen hnd
    obtain ⟨V', h1, _, _, _, _, h2⟩ := ns.permuteValues_spec V hwf hlen hnd
    exact ⟨V', h1, h2⟩
  · intro ns V hwf hsum hnd
    obtain ⟨V', h1, _, _, h2⟩ := ns1PermLoop_idem ns.digits V hwf hsum hnd
    exact ⟨V', h1, h2⟩
  · intro ns Vs hp
    obtain ⟨Vs', h1, h2⟩ := ns2PermLoop_idem ns.digits Vs hp
    exact ⟨Vs', h1, h2⟩

theorem C9_witness :
    DigitsWf (NS0.mk [1, 2, 0]).digits ([3, 5, 10, 15] : List Nat).length ∧
    (NS0.mk [1, 2, 0]).digits.length + 1 = ([3, 5, 10, 15] : List Nat).length ∧
    ([3, 5, 10, 15] : List Nat).Nodup ∧
    ∃ V', (NS0.mk [1, 2, 0]).permuteValues [3, 5, 10, 15] = some V' ∧
      (NS0.mk [1, 2, 0]).permuteValues V' = some V' :=
  ⟨by decide, by decide, by decide,
    C9_permute_values_idempotent.1 ⟨[1, 2, 0]⟩ [3, 5, 10, 15]
      (by decide) (by decide) (by decide)⟩

/-- **C10** (counterexample): the two engines disagree at `n = 1`:
`FNS::from(0).to_permutation(1)` panics (`vec![0; size - digits.len() - 1]`
underflows, modelled as `none`), while `NS0::try_from_input(0, 1)` yields the
singleton permutation `[0]`. -/
theorem C10_counterexample :
    (FNS.fromNat 0).toPermutation 1 = none ∧
    (NS0.tryFromInput 0 1).bind NS0.toPermutation = some [0] :=
  ⟨by decide, by decide⟩

/-- **C10** (amended): for every `n ≥ 2` and `N < n!` the legacy engine's
permutation agrees with `NS0`'s, and on every nonempty distinct-byte vector
the two `read_values` recover the same integer even though `FNS` strips
leading zero digits. -/
theorem C10_engines_agree :
    (∀ n N : Nat, 2 ≤ n → N < factorial n →
      (FNS.fromNat N).toPermutation n = (NS0.tryFromInput N n).bind NS0.toPermutation) ∧
    (∀ V : List Nat, V ≠ [] → V.Nodup →
      (FNS.readValues V).map FNS.toNat = (NS0.readValues V).map NS0.toNat) := by
  constructor
  · intro n N hn hN
    have hns : NS0.tryFromInput N n = some ⟨ns0Digits N (ns0Bases n)⟩ := by
      rw [NS0.tryFromInput, if_pos hN]
    rw [hns, Option.some_bind']
    have hlen : (ns0Digits N (ns0Bases n)).length = n - 1 := ns0Digits_bases_length N n
    rw [NS0.toPermutation]
    set k := fnsNumDigits N with hk
    have hklt : N < factorial (k + 1) := fnsNumDigits_lt N
    have hkle : k ≤ n - 1 :=
      fnsNumDigits_le (by omega)
        (by rw [show n - 1 + 1 = n from by omega]; exact hN)
    have hflen : (FNS.fromNat N).digits.length = k := by
      rw [FNS.fromNat]
      rw [ns0Digits_bases_length N (k + 1)]
      omega
    have hfd : (FNS.fromNat N).digits = ns0Digits N (ns0Bases (k + 1)) := rfl
    rw [FNS.toPermutation, if_pos (by omega), hflen, hfd]
    have hpad := ns0Digits_pad k n N (by omega) hklt
    rw [show n - k - 1 = n - (k + 1) from by omega, ← hpad, hlen,
      show n - 1 + 1 = n from by omega]
  · intro V _ _
    unfold FNS.readValues NS0.readValues FNS.fromPermutation NS0.fromPermutation
    set q := V.map fun v => (sortNat V).indexOf v with hq
    by_cases hemp : q.isEmpty
    · rw [if_pos hemp, if_pos hemp]
      rfl
    · rw [if_neg hemp, if_neg hemp, Option.map_map, Option.map_map]
      have hfuns : (FNS.toNat ∘ fun ds => (⟨stripZeros ds⟩ : FNS)) =
          NS0.toNat ∘ NS0.mk := by
        funext ds
        simp only [Function.comp_apply]
        rw [fns_toNat_eq_ns0, ns0_toNat_stripZeros]
      rw [hfuns]

theorem C10_witness :
    (2 ≤ 3 ∧ 5 < factorial 3 ∧
      (FNS.fromNat 5).toPermutation 3 = (NS0.tryFromInput 5 3).bind NS0.toPermutation) ∧
    (([5, 10, 3] : List Nat) ≠ [] ∧ ([5, 10, 3] : List Nat).Nodup ∧
      (FNS.readValues [5, 10, 3]).map FNS.toNat =
        (NS0.readValues [5, 10, 3]).map NS0.toNat) :=
  ⟨⟨by decide, by decide, C10_engines_agree.1 3 5 (by decide) (by decide)⟩,
   ⟨by decide, by decide, C10_engines_agree.2 [5, 10, 3] (by decide) (by decide)⟩⟩

end JpegSteg
